import Mathlib

/-!
Verification development for the clawmail mailbox triage engine.

The definitions below are a shallow embedding of the program's core:
the action resolver (`classifier.py`, `EmailClassifier.classify`, pure
resolution loop), the IMAP client's pure logic (`imap.py`:
`fetch_recent` UID selection, `execute_action` command dispatch,
`list_folders` parsing and sorting, `_strip_html`, `_extract_body`),
and a model of Python's `textwrap.shorten`.

Modelling conventions:
* Python strings are `List Char` (wrapped in `String` where convenient);
  character classes are the ASCII fragment actually exercised.
* Timestamps are absolute times in seconds as rationals (`ℚ`); a naive
  datetime is normalised to UTC by the code, so an absolute instant
  captures it. `age_minutes = (now - date).total_seconds() / 60` becomes
  exact rational arithmetic.
* Python dicts built by comprehension (`last` entry wins on duplicate
  keys) are association-list lookups on the reversed list.
* Network I/O (search results, fetch results, protocol status) enters
  as explicit parameters; the embedded functions are the pure
  computations the source performs on those inputs.
-/

namespace Clawmail

/-! ## Data model (`models.py`) -/

/-- `ActionType` enum from `models.py`. -/
inductive ActionType
  | none
  | flag
  | move
  | trash
  | archive
deriving DecidableEq

/-- `EmailSummary` from `models.py`: a parsed email.  `date` is the
absolute timestamp in seconds (ℚ), `Option.none` when the `Date` header
was missing or unparseable. -/
structure EmailSummary where
  uid : Nat
  message_id : String := ""
  subject : String := ""
  sender : String := ""
  date : Option ℚ := Option.none
  snippet : String := ""
  has_attachments : Bool := false
  flags : List String := []
deriving DecidableEq

/-- `CategoryRule` from `models.py`: one row of user policy. -/
structure CategoryRule where
  name : String
  description : String := ""
  action : ActionType := ActionType.none
  target_folder : Option String := Option.none
  older_than_minutes : Option Int := Option.none
deriving DecidableEq

/-- `EmailClassification` from `models.py`: the oracle's judgment for
one message. -/
structure EmailClassification where
  email_uid : Nat
  category : String
  confidence : ℚ
  reasoning : String
deriving DecidableEq

/-- `EmailAction` from `models.py`: a resolved action. -/
structure EmailAction where
  email_uid : Nat
  category : String
  confidence : ℚ
  reasoning : String
  action : ActionType
  target_folder : Option String
deriving DecidableEq

/-! ## Action resolver (`classifier.py` lines 67-105)

`EmailClassifier.classify` builds `category_map = {c.name: c for c in
categories}` and `email_map = {e.uid: e for e in emails}` and then, per
classification, resolves an action.  The two dict lookups are embedded
as last-wins association lookups; the resolution loop is `resolve`. -/

/-- Lookup in `email_map = {e.uid: e for e in emails}`: a dict built by
comprehension keeps the last entry for a duplicate key. -/
def email_map_get (emails : List EmailSummary) (uid : Nat) : Option EmailSummary :=
  emails.reverse.find? (fun e => e.uid == uid)

/-- Lookup in `category_map = {c.name: c for c in categories}`. -/
def category_map_get (rules : List CategoryRule) (category : String) : Option CategoryRule :=
  rules.reverse.find? (fun r => r.name == category)

/-- One iteration of the resolution loop in `EmailClassifier.classify`
(lines 73-103): drop the judgment when its `email_uid` is not a fetched
message or its `category` has no rule; otherwise start from the rule's
`(action, target_folder)` and, when the rule has `older_than_minutes`
and the message has a date, downgrade to `(none, None)` if
`age_minutes < older_than_minutes`.  The source normalises a naive
datetime to UTC first (lines 87-88); with absolute timestamps that step
is the identity. -/
def resolve_one (rules : List CategoryRule) (emails : List EmailSummary)
    (now : ℚ) (c : EmailClassification) : Option EmailAction :=
  match email_map_get emails c.email_uid with
  | Option.none => Option.none
  | some e =>
    match category_map_get rules c.category with
    | Option.none => Option.none
    | some rule =>
      let gated : ActionType × Option String :=
        match rule.older_than_minutes, e.date with
        | some m, some d =>
          if (now - d) / 60 < (m : ℚ) then (ActionType.none, Option.none)
          else (rule.action, rule.target_folder)
        | _, _ => (rule.action, rule.target_folder)
      some ⟨c.email_uid, c.category, c.confidence, c.reasoning, gated.1, gated.2⟩

/-- The full resolution loop of `EmailClassifier.classify`: judgments
that survive the two lookups contribute one `EmailAction` each, in
order; dropped judgments contribute nothing and raise nothing. -/
def resolve (classifications : List EmailClassification) (rules : List CategoryRule)
    (emails : List EmailSummary) (now : ℚ) : List EmailAction :=
  classifications.filterMap (resolve_one rules emails now)

/-! ## Resolver theorems (claims C1, C2, C4, C6) -/

/-- C1 (counterexample): the biconditional "resolved action is `none`
with a cleared target iff `age_minutes < M`" fails as stated.  A rule
whose configured pair is already `(none, null)` and an age of exactly
`M = 0` minutes: the age gate does not fire (`0 < 0` is false), yet
the emitted action is `none` with a null target folder. -/
theorem C1_counterexample :
    resolve [⟨1, "keep", 1, "r"⟩]
        [⟨"keep", "", ActionType.none, Option.none, some 0⟩]
        [⟨1, "", "", "", some 0, "", false, []⟩] 0
      = [⟨1, "keep", 1, "r", ActionType.none, Option.none⟩]
    ∧ ¬ (((0 : ℚ) - 0) / 60 < ((0 : Int) : ℚ)) := by
  constructor
  · norm_num [resolve, resolve_one, email_map_get, category_map_get, List.filterMap]
  · norm_num

/-- C1 (amended): for a judgment that reaches a rule with
`older_than_minutes = M` and a message with a known date, provided the
rule's configured pair is not already `(none, null)`: the resolver
emits `(none, null)` iff the message's age in minutes is strictly less
than `M`; and whenever the age is at least `M` (in particular at
exactly `M` — the gate is inclusive) the rule's configured action and
target folder are kept. -/
theorem C1_age_gate (rules : List CategoryRule) (emails : List EmailSummary)
    (now d : ℚ) (j : EmailClassification) (e : EmailSummary) (r : CategoryRule) (M : Int)
    (he : email_map_get emails j.email_uid = some e)
    (hr : category_map_get rules j.category = some r)
    (hM : r.older_than_minutes = some M)
    (hd : e.date = some d)
    (hnn : ¬ (r.action = ActionType.none ∧ r.target_folder = Option.none)) :
    (resolve_one rules emails now j =
        some ⟨j.email_uid, j.category, j.confidence, j.reasoning, ActionType.none, Option.none⟩
      ↔ (now - d) / 60 < (M : ℚ))
    ∧ (¬ ((now - d) / 60 < (M : ℚ)) →
        resolve_one rules emails now j =
          some ⟨j.email_uid, j.category, j.confidence, j.reasoning, r.action, r.target_folder⟩) := by
  by_cases hlt : (now - d) / 60 < (M : ℚ)
  · simp only [resolve_one, he, hr, hM, hd, if_pos hlt]
    exact ⟨⟨fun _ => hlt, fun _ => trivial⟩, fun hc => absurd hlt hc⟩
  · simp only [resolve_one, he, hr, hM, hd, if_neg hlt]
    refine ⟨⟨fun h => ?_, fun h => absurd h hlt⟩, fun _ => trivial⟩
    simp only [Option.some.injEq, EmailAction.mk.injEq, true_and] at h
    exact absurd h hnn

/-- Concrete rule used to instantiate `C1_age_gate`. -/
def c1rule : CategoryRule := ⟨"spam", "", ActionType.trash, Option.none, some 5⟩

/-- Concrete message used to instantiate `C1_age_gate`. -/
def c1mail : EmailSummary := ⟨2, "", "", "", some 0, "", false, []⟩

/-- Concrete judgment used to instantiate `C1_age_gate`. -/
def c1judg : EmailClassification := ⟨2, "spam", 1, "x"⟩

/-- Witness for `C1_age_gate`: at age 10 minutes against a 5-minute
gate, the trash rule's action is kept. -/
theorem C1_age_gate_witness :
    (¬ (c1rule.action = ActionType.none ∧ c1rule.target_folder = Option.none))
    ∧ ((resolve_one [c1rule] [c1mail] 600 c1judg =
          some ⟨2, "spam", 1, "x", ActionType.none, Option.none⟩
        ↔ ((600 : ℚ) - 0) / 60 < ((5 : Int) : ℚ))
      ∧ (¬ (((600 : ℚ) - 0) / 60 < ((5 : Int) : ℚ)) →
          resolve_one [c1rule] [c1mail] 600 c1judg =
            some ⟨2, "spam", 1, "x", ActionType.trash, Option.none⟩)) :=
  ⟨by decide, C1_age_gate [c1rule] [c1mail] 600 0 c1judg c1mail c1rule 5
    (by decide) (by decide) (by decide) (by decide) (by decide)⟩

/-- C2: a judgment whose `email_uid` is not in the message map, or
whose `category` matches no rule, contributes no `EmailAction`; the
other judgments resolve exactly as they would without it.  The embedded
loop is total — the source path (`dict.get` / `in` checks followed by
`continue`) raises nothing. -/
theorem C2_unknown_dropped (cs1 cs2 : List EmailClassification) (j : EmailClassification)
    (rules : List CategoryRule) (emails : List EmailSummary) (now : ℚ)
    (h : email_map_get emails j.email_uid = Option.none
       ∨ category_map_get rules j.category = Option.none) :
    resolve (cs1 ++ j :: cs2) rules emails now = resolve (cs1 ++ cs2) rules emails now := by
  have hj : resolve_one rules emails now j = Option.none := by
    rcases h with h | h
    · simp [resolve_one, h]
    · cases hm : email_map_get emails j.email_uid with
      | none => simp [resolve_one, hm]
      | some e => simp [resolve_one, hm, h]
  simp [resolve, List.filterMap_append, List.filterMap_cons, hj]

/-- Concrete rule used to instantiate C2's theorem. -/
def c2rule : CategoryRule := ⟨"spam", "", ActionType.trash, Option.none, Option.none⟩

/-- Concrete message used to instantiate C2's theorem. -/
def c2mail : EmailSummary := ⟨5, "", "", "", Option.none, "", false, []⟩

/-- Witness for `C2_unknown_dropped`: a judgment with a category no
rule matches is dropped while the following judgment still resolves. -/
theorem C2_unknown_dropped_witness :
    (email_map_get [c2mail] (⟨5, "mystery", 1, "r"⟩ : EmailClassification).email_uid = Option.none
      ∨ category_map_get [c2rule] (⟨5, "mystery", 1, "r"⟩ : EmailClassification).category
          = Option.none)
    ∧ resolve ([] ++ ⟨5, "mystery", 1, "r"⟩ :: [⟨5, "spam", 1, "s"⟩]) [c2rule] [c2mail] 0
        = resolve ([] ++ [⟨5, "spam", 1, "s"⟩]) [c2rule] [c2mail] 0 :=
  ⟨Or.inr (by decide),
    C2_unknown_dropped [] [⟨5, "spam", 1, "s"⟩] ⟨5, "mystery", 1, "r"⟩ [c2rule] [c2mail] 0
      (Or.inr (by decide))⟩

/-- C4: when no rule that is actually applied to a judgment (both
lookups succeed) carries an `older_than_minutes` threshold, resolution
does not depend on `now`. -/
theorem C4_now_independent (cs : List EmailClassification) (rules : List CategoryRule)
    (emails : List EmailSummary) (now1 now2 : ℚ)
    (h : ∀ j ∈ cs, (email_map_get emails j.email_uid).isSome = true →
        ((category_map_get rules j.category).all fun r =>
          r.older_than_minutes == Option.none) = true) :
    resolve cs rules emails now1 = resolve cs rules emails now2 := by
  induction cs with
  | nil => rfl
  | cons j cs ih =>
    have hj := h j (List.mem_cons_self _ _)
    have hrest := fun j' hj' => h j' (List.mem_cons_of_mem _ hj')
    have hone : resolve_one rules emails now1 j = resolve_one rules emails now2 j := by
      cases hm : email_map_get emails j.email_uid with
      | none => simp [resolve_one, hm]
      | some e =>
        cases hc : category_map_get rules j.category with
        | none => simp [resolve_one, hm, hc]
        | some r =>
          have hnone : r.older_than_minutes = Option.none := by
            have h2 := hj (by rw [hm]; rfl)
            rw [hc] at h2
            simpa using h2
          simp [resolve_one, hm, hc, hnone]
    have ih' := ih hrest
    simp only [resolve, List.filterMap_cons] at ih' ⊢
    rw [hone, ih']

/-- Witness for `C4_now_independent`: a trash rule without an age gate
resolves identically at two different times. -/
theorem C4_now_independent_witness :
    (∀ j ∈ [(⟨5, "spam", 1, "s"⟩ : EmailClassification)],
      (email_map_get [⟨5, "", "", "", some 0, "", false, []⟩] j.email_uid).isSome = true →
        ((category_map_get [⟨"spam", "", ActionType.trash, Option.none, Option.none⟩]
            j.category).all fun r => r.older_than_minutes == Option.none) = true)
    ∧ resolve [⟨5, "spam", 1, "s"⟩] [⟨"spam", "", ActionType.trash, Option.none, Option.none⟩]
        [⟨5, "", "", "", some 0, "", false, []⟩] 0
      = resolve [⟨5, "spam", 1, "s"⟩] [⟨"spam", "", ActionType.trash, Option.none, Option.none⟩]
        [⟨5, "", "", "", some 0, "", false, []⟩] 99999 :=
  ⟨by decide,
    C4_now_independent [⟨5, "spam", 1, "s"⟩] [⟨"spam", "", ActionType.trash, Option.none, Option.none⟩]
      [⟨5, "", "", "", some 0, "", false, []⟩] 0 99999 (by decide)⟩

/-- C6: a rule with an `older_than_minutes` threshold applied to a
message with no timestamp skips the age gate entirely: the configured
action and target folder are kept. -/
theorem C6_missing_date_keeps_action (rules : List CategoryRule) (emails : List EmailSummary)
    (now : ℚ) (j : EmailClassification) (e : EmailSummary) (r : CategoryRule) (M : Int)
    (he : email_map_get emails j.email_uid = some e)
    (hr : category_map_get rules j.category = some r)
    (hM : r.older_than_minutes = some M)
    (hd : e.date = Option.none) :
    resolve_one rules emails now j =
      some ⟨j.email_uid, j.category, j.confidence, j.reasoning, r.action, r.target_folder⟩ := by
  simp [resolve_one, he, hr, hM, hd]

/-! ## fetch_recent (`imap.py` lines 120-183, claim C3) -/

/-- Python's `uids[-max_emails:]`: the last `m` elements of the list.
The Python quirk is embedded faithfully: `-0 == 0`, so `uids[-0:]` is
the whole list, not the empty list. -/
def takeLastPy (l : List α) (m : Nat) : List α :=
  if m = 0 then l else l.drop (l.length - m)

/-- The pure UID-selection step of `IMAPClient.fetch_recent` (lines
142-159): drop UIDs in `excluded_uids` (the loop is skipped entirely
when the set is falsy, which coincides with filtering by the empty
set), return `[]` when nothing remains, else keep the last `max_emails`
entries of the search result.  `searchUids` are the UIDs as parsed from
the server's search response, in server order. -/
def fetch_recent_uids (searchUids : List Nat) (excluded : List Nat) (maxEmails : Nat) :
    List Nat :=
  let uids := if excluded.isEmpty then searchUids
              else searchUids.filter (fun u => !(excluded.contains u))
  if uids.isEmpty then [] else takeLastPy uids maxEmails

/-- `IMAPClient.fetch_recent`: `searchOk` is the protocol status of the
UID SEARCH (a non-OK status or empty response yields `[]`),
`fetchParse` is the per-UID fetch-and-parse step, returning
`Option.none` when the fetch status is non-OK or parsing raises — both
swallowed with `continue` by the source.  `_parse_email` stores the
fetched UID in the summary it builds; the theorems carry that fact as
the hypothesis that `fetchParse u` only returns summaries with
`uid = u`. -/
def fetch_recent (searchOk : Bool) (searchUids : List Nat) (excluded : List Nat)
    (maxEmails : Nat) (fetchParse : Nat → Option EmailSummary) : List EmailSummary :=
  if searchOk = false ∨ searchUids.isEmpty = true then []
  else (fetch_recent_uids searchUids excluded maxEmails).filterMap fetchParse

/-- The truncation keeps at most `m` UIDs — for `m ≥ 1`. -/
theorem takeLastPy_length_le (l : List α) (m : Nat) (hm : 1 ≤ m) :
    (takeLastPy l m).length ≤ m := by
  unfold takeLastPy
  rw [if_neg (by omega), List.length_drop]
  omega

/-- Members of the truncation are members of the list. -/
theorem mem_takeLastPy {l : List α} {m : Nat} {a : α} (h : a ∈ takeLastPy l m) : a ∈ l := by
  unfold takeLastPy at h
  split at h
  · exact h
  · exact List.mem_of_mem_drop h

/-- A selected UID came from the search result and is not excluded. -/
theorem mem_fetch_recent_uids {s e : List Nat} {N : Nat} {u : Nat}
    (h : u ∈ fetch_recent_uids s e N) : u ∈ s ∧ u ∉ e := by
  simp only [fetch_recent_uids] at h
  by_cases he : e.isEmpty = true
  · rw [if_pos he] at h
    have he' : e = [] := List.isEmpty_iff.mp he
    split at h
    · cases h
    · exact ⟨mem_takeLastPy h, by simp [he']⟩
  · rw [if_neg he] at h
    split at h
    · cases h
    · have h2 := List.mem_filter.mp (mem_takeLastPy h)
      refine ⟨h2.1, fun hmem => ?_⟩
      have hb := h2.2
      rw [show e.contains u = true from List.elem_eq_true_of_mem hmem] at hb
      simp at hb

/-- When the filtered candidate list is nonempty, the selection equals
exclusion followed by truncation. -/
theorem fetch_recent_uids_eq (s e : List Nat) (N : Nat)
    (h : s.filter (fun u => !(e.contains u)) ≠ []) :
    fetch_recent_uids s e N = takeLastPy (s.filter (fun u => !(e.contains u))) N := by
  simp only [fetch_recent_uids]
  by_cases he : e.isEmpty = true
  · have he' : e = [] := List.isEmpty_iff.mp he
    have hf : s.filter (fun u => !(e.contains u)) = s :=
      List.filter_eq_self.mpr (fun a _ => by simp [he'])
    rw [hf] at h ⊢
    rw [if_pos he, if_neg (fun hh => h (List.isEmpty_iff.mp hh))]
  · rw [if_neg he, if_neg (fun hh => h (List.isEmpty_iff.mp hh))]

/-- A filterMap by a UID-preserving fetch whose every call succeeds
recovers exactly the input UID list. -/
theorem filterMap_map_uid (f : Nat → Option EmailSummary)
    (hu : ∀ u s, f u = some s → s.uid = u) :
    ∀ us : List Nat, (∀ u ∈ us, (f u).isSome = true) →
      (us.filterMap f).map (fun s => s.uid) = us := by
  intro us
  induction us with
  | nil => intro _; rfl
  | cons u us ih =>
    intro hall
    obtain ⟨s, hs⟩ := Option.isSome_iff_exists.mp (hall u (List.mem_cons_self _ _))
    rw [List.filterMap_cons_some hs, List.map_cons, hu u s hs,
      ih (fun v hv => hall v (List.mem_cons_of_mem _ hv))]

/-- C3 (counterexample): with `maxCount = 0` the claim "returns at most
N summaries" fails — Python's `uids[-0:]` is the whole list, so one
candidate with a successful fetch yields one summary, not zero. -/
theorem C3_counterexample :
    ¬ ((fetch_recent true [5] [] 0
        (fun u => some ⟨u, "", "", "", Option.none, "", false, []⟩)).length ≤ 0) := by
  decide

/-- C3 (amended): for `maxCount ≥ 1` and a UID-preserving fetch step:
`fetch_recent` returns at most `maxCount` summaries and never a UID in
`excludedUids`; moreover — search succeeded, search results ascending,
per-UID fetches succeeding — when more than `maxCount` non-excluded
candidates match, the returned messages are exactly the selection of
the exclusion-then-truncation pipeline, and every dropped candidate has
a strictly smaller UID than every returned one (the `maxCount` highest
UIDs are kept). -/
theorem C3_fetch_recent (ok : Bool) (searchUids excluded : List Nat) (N : Nat)
    (f : Nat → Option EmailSummary)
    (hu : ∀ u s, f u = some s → s.uid = u)
    (hN : 1 ≤ N) :
    (fetch_recent ok searchUids excluded N f).length ≤ N
    ∧ (∀ s ∈ fetch_recent ok searchUids excluded N f, s.uid ∉ excluded)
    ∧ (ok = true → List.Sorted (· < ·) searchUids →
       (∀ u ∈ fetch_recent_uids searchUids excluded N, (f u).isSome = true) →
       N < (searchUids.filter (fun u => !(excluded.contains u))).length →
       ((fetch_recent ok searchUids excluded N f).map (fun s => s.uid)
          = fetch_recent_uids searchUids excluded N
        ∧ ∀ y ∈ searchUids.filter (fun u => !(excluded.contains u)),
            y ∉ fetch_recent_uids searchUids excluded N →
            ∀ x ∈ fetch_recent_uids searchUids excluded N, y < x)) := by
  refine ⟨?_, ?_, ?_⟩
  · unfold fetch_recent
    split
    · simp
    · calc (List.filterMap f (fetch_recent_uids searchUids excluded N)).length
          ≤ (fetch_recent_uids searchUids excluded N).length := List.length_filterMap_le _ _
        _ ≤ N := by
            simp only [fetch_recent_uids]
            by_cases he : excluded.isEmpty = true
            · rw [if_pos he]
              split
              · simp
              · exact takeLastPy_length_le _ _ hN
            · rw [if_neg he]
              split
              · simp
              · exact takeLastPy_length_le _ _ hN
  · intro s hs
    unfold fetch_recent at hs
    split at hs
    · cases hs
    · obtain ⟨u, hmem, hfu⟩ := List.mem_filterMap.mp hs
      rw [hu u s hfu]
      exact (mem_fetch_recent_uids hmem).2
  · intro hok hsort hall hcount
    set fil := searchUids.filter (fun u => !(excluded.contains u)) with hfil_def
    have hfil_ne : fil ≠ [] := by
      intro h0
      rw [h0] at hcount
      simp at hcount
    have hs_ne : searchUids.isEmpty = false := by
      rw [List.isEmpty_eq_false]
      intro h0
      apply hfil_ne
      rw [hfil_def, h0]
      rfl
    have hsel : fetch_recent_uids searchUids excluded N = takeLastPy fil N :=
      fetch_recent_uids_eq _ _ _ hfil_ne
    have hfetch : fetch_recent ok searchUids excluded N f
        = (fetch_recent_uids searchUids excluded N).filterMap f := by
      unfold fetch_recent
      rw [if_neg]
      simp [hok, hs_ne]
    constructor
    · rw [hfetch]
      exact filterMap_map_uid f hu _ hall
    · intro y hy hynot x hx
      rw [hsel] at hynot hx
      unfold takeLastPy at hynot hx
      rw [if_neg (by omega)] at hynot hx
      have hyt : y ∈ fil.take (fil.length - N) := by
        have := List.take_append_drop (fil.length - N) fil
        rw [← this] at hy
        rcases List.mem_append.mp hy with h | h
        · exact h
        · exact absurd h hynot
      have hfs : List.Pairwise (· < ·) fil := hsort.filter _
      rw [← List.take_append_drop (fil.length - N) fil] at hfs
      exact (List.pairwise_append.mp hfs).2.2 y hyt x hx

/-- The UID-preserving fetch stub used to instantiate C3's theorem. -/
def fetchStub : Nat → Option EmailSummary :=
  fun u => some ⟨u, "", "", "", Option.none, "", false, []⟩

/-- Witness for `C3_fetch_recent` at `maxCount = 1` with search result
`[3, 7, 9]` and exclusion `[9]`. -/
theorem C3_fetch_recent_witness :
    ((∀ u s, fetchStub u = some s → s.uid = u) ∧ 1 ≤ 1)
    ∧ ((fetch_recent true [3, 7, 9] [9] 1 fetchStub).length ≤ 1
      ∧ (∀ s ∈ fetch_recent true [3, 7, 9] [9] 1 fetchStub, s.uid ∉ [9])
      ∧ (true = true → List.Sorted (· < ·) [3, 7, 9] →
         (∀ u ∈ fetch_recent_uids [3, 7, 9] [9] 1, (fetchStub u).isSome = true) →
         1 < (([3, 7, 9] : List Nat).filter (fun u => !(([9] : List Nat).contains u))).length →
         ((fetch_recent true [3, 7, 9] [9] 1 fetchStub).map (fun s => s.uid)
            = fetch_recent_uids [3, 7, 9] [9] 1
          ∧ ∀ y ∈ ([3, 7, 9] : List Nat).filter (fun u => !(([9] : List Nat).contains u)),
              y ∉ fetch_recent_uids [3, 7, 9] [9] 1 →
              ∀ x ∈ fetch_recent_uids [3, 7, 9] [9] 1, y < x))) :=
  ⟨⟨fun u s h => by injection h with h2; rw [← h2], le_refl 1⟩,
    C3_fetch_recent true [3, 7, 9] [9] 1 fetchStub
      (fun u s h => by injection h with h2; rw [← h2]) (le_refl 1)⟩

/-- Concrete rule used to instantiate `C6_missing_date_keeps_action`. -/
def c6rule : CategoryRule := ⟨"stale", "", ActionType.move, some "Old", some 60⟩

/-- Concrete message (no date) used to instantiate
`C6_missing_date_keeps_action`. -/
def c6mail : EmailSummary := ⟨3, "", "", "", Option.none, "", false, []⟩

/-- Witness for `C6_missing_date_keeps_action`. -/
theorem C6_missing_date_keeps_action_witness :
    (c6mail.date = Option.none ∧ c6rule.older_than_minutes = some 60)
    ∧ resolve_one [c6rule] [c6mail] 12345 ⟨3, "stale", 1, "y"⟩ =
        some ⟨3, "stale", 1, "y", ActionType.move, some "Old"⟩ :=
  ⟨⟨rfl, rfl⟩,
    C6_missing_date_keeps_action [c6rule] [c6mail] 12345 ⟨3, "stale", 1, "y"⟩ c6mail c6rule 60
      (by decide) (by decide) (by decide) (by decide)⟩

/-! ## execute_action (`imap.py` lines 185-221, claims C5, C10)

`IMAPClient.execute_action` issues IMAP commands through
`self.conn`; the property `conn` raises only when the client was never
connected.  The embedding records the session state explicitly and
returns the list of mail-store commands issued (plus the trailing
throttle sleep); an `Except.error` marks the only raising path the
method has.  Notably, the source contains no check of the selected
mailbox's read-only mode, and it ignores the `(status, data)` results
of every `uid`/`expunge` call, so a server rejection (the `NO` reply a
read-only selection produces for STORE/EXPUNGE) is silently
discarded. -/

/-- One mail-store protocol command issued by `execute_action`, plus
the throttle `time.sleep(ACTION_DELAY)` marker. -/
inductive ImapCmd
  | uidStore (uid : Nat) (op : String) (flags : String)
  | uidCopy (uid : Nat) (folder : String)
  | expunge
  | sleep (seconds : ℚ)
deriving DecidableEq

/-- `ACTION_DELAY = 0.1` seconds, as the reduced fraction 1/10. -/
def ACTION_DELAY : ℚ := ⟨1, 10, by norm_num, by norm_num⟩

/-- Session state of `IMAPClient`: `connected` mirrors
`self._conn is not None`; `selected` is the mailbox passed to the last
`conn.select` together with its `readonly` flag. -/
structure ImapSession where
  connected : Bool
  selected : Option (String × Bool)
deriving DecidableEq

/-- `_quote_folder` (lines 22-26): quote a folder name when it contains
a space and does not already start with a double quote. -/
def quote_folder (name : String) : String :=
  if (name.data.contains ' ' && !(name.data.head? == some '"')) = true then
    "\"" ++ name ++ "\""
  else name

/-- Python truthiness of the `target_folder` argument: `None` and the
empty string are falsy. -/
def targetTruthy : Option String → Bool
  | Option.none => false
  | some s => !(s == "")

/-- `IMAPClient.execute_action` (lines 189-221): dispatch on the action
string; `flag` stores `\Flagged`; `trash` copies to the Gmail trash,
marks `\Deleted` and expunges; `archive` marks `\Deleted` and
expunges; `move` with a truthy target copies there, marks and
expunges; anything else falls through every branch and issues nothing.
Every path ends with the fixed `ACTION_DELAY` sleep, and no path
raises or inspects the selected mailbox's read-only mode. -/
def execute_action (sess : ImapSession) (uid : Nat) (action : String)
    (target_folder : Option String) : Except String (List ImapCmd) :=
  if sess.connected = false then
    Except.error "IMAPClient not connected. Use as context manager."
  else
    Except.ok (
      (if action = "flag" then
        [ImapCmd.uidStore uid "+FLAGS" "(\\Flagged)"]
      else if action = "trash" then
        [ImapCmd.uidCopy uid (quote_folder "[Gmail]/Trash"),
         ImapCmd.uidStore uid "+FLAGS" "(\\Deleted)", ImapCmd.expunge]
      else if action = "archive" then
        [ImapCmd.uidStore uid "+FLAGS" "(\\Deleted)", ImapCmd.expunge]
      else if action = "move" ∧ targetTruthy target_folder = true then
        [ImapCmd.uidCopy uid (quote_folder (target_folder.getD "")),
         ImapCmd.uidStore uid "+FLAGS" "(\\Deleted)", ImapCmd.expunge]
      else []) ++ [ImapCmd.sleep ACTION_DELAY])

/-- C5: a mutation issued while the selected mailbox is read-only is
NOT rejected by the client: with INBOX selected read-only, `flag`
completes without error, issuing the store command and the throttle
sleep — and the issued commands do not depend on the read-only flag at
all.  This contradicts the claim that such a call fails loudly: the
source has no mode check and discards the results of every protocol
call, so the server's `NO` rejection is swallowed. -/
theorem C5_readonly_mutation_not_rejected :
    (execute_action ⟨true, some ("INBOX", true)⟩ 7 "flag" Option.none
      = Except.ok [ImapCmd.uidStore 7 "+FLAGS" "(\\Flagged)", ImapCmd.sleep ACTION_DELAY])
    ∧ (∀ ro : Bool, execute_action ⟨true, some ("INBOX", ro)⟩ 7 "flag" Option.none
        = execute_action ⟨true, some ("INBOX", false)⟩ 7 "flag" Option.none) :=
  ⟨rfl, fun _ => rfl⟩

/-- C10: `move` with a missing or empty target folder, or any action
string outside the four dispatched ones (including `none`), issues no
mail-store command at all and raises nothing: the call returns `ok`
with only the fixed post-action delay. -/
theorem C10_unknown_action_noop (sess : ImapSession) (uid : Nat) (action : String)
    (tf : Option String)
    (hc : sess.connected = true)
    (h : (action = "move" ∧ (tf = Option.none ∨ tf = some ""))
       ∨ (action ≠ "flag" ∧ action ≠ "trash" ∧ action ≠ "archive" ∧ action ≠ "move")) :
    execute_action sess uid action tf = Except.ok [ImapCmd.sleep ACTION_DELAY] := by
  unfold execute_action
  rw [if_neg (by rw [hc]; exact fun hh => nomatch hh)]
  rcases h with ⟨hm, ht⟩ | ⟨h1, h2, h3, h4⟩
  · subst hm
    have htt : targetTruthy tf = false := by
      rcases ht with rfl | rfl <;> rfl
    rw [if_neg (by decide), if_neg (by decide), if_neg (by decide),
      if_neg (fun hh => by rw [htt] at hh; exact absurd hh.2 (by decide))]
    rfl
  · rw [if_neg h1, if_neg h2, if_neg h3, if_neg (fun hh => h4 hh.1)]
    rfl

/-- Witness for `C10_unknown_action_noop` at action `"none"`. -/
theorem C10_unknown_action_noop_witness :
    ((true : Bool) = true
      ∧ (("none" : String) ≠ "flag" ∧ ("none" : String) ≠ "trash"
        ∧ ("none" : String) ≠ "archive" ∧ ("none" : String) ≠ "move"))
    ∧ execute_action ⟨true, some ("INBOX", false)⟩ 3 "none" Option.none
        = Except.ok [ImapCmd.sleep ACTION_DELAY] :=
  ⟨⟨rfl, by decide, by decide, by decide, by decide⟩,
    C10_unknown_action_noop ⟨true, some ("INBOX", false)⟩ 3 "none" Option.none rfl
      (Or.inr ⟨by decide, by decide, by decide, by decide⟩)⟩

/-! ## list_folders (`imap.py` lines 223-243, claim C9)

`IMAPClient.list_folders` returns `[]` on a non-OK LIST status, else
parses each response line with
`re.search(r'"[^"]*"\s+"?([^"]+)"?$', decoded)` — falling back to the
last space-separated token stripped of quotes — and returns the names
`sorted(...)`.  The regex is embedded as an explicit backtracking
matcher with Python semantics: leftmost start, `[^"]*` up to the first
quote, greedy `\s+` with backtracking, optional surrounding quotes
around a non-empty quote-free group anchored at the end. -/

/-- Python whitespace (ASCII fragment): the characters `\s` and
`str.split` treat as whitespace in the inputs this program handles. -/
def pyWs (c : Char) : Bool :=
  c = ' ' || c = '\t' || c = '\n' || c = '\r' || c = '\x0B' || c = '\x0C'

/-- Match `([^"]+)"?$` against `l` (after the optional leading quote of
the group has been handled): strip one trailing quote if present; the
rest is the group iff it is non-empty and quote-free. -/
def tailBody (l : List Char) : Option (List Char) :=
  let b := if l.getLast? = some '"' then l.dropLast else l
  if b ≠ [] ∧ '"' ∉ b then some b else Option.none

/-- Match `"?([^"]+)"?$` against `r`: a leading quote, when present, is
consumed by `"?` (the group itself cannot contain a quote, so the
alternative of leaving it never matches). -/
def matchTail (r : List Char) : Option (List Char) :=
  match r with
  | '"' :: rest => tailBody rest
  | _ => tailBody r

/-- Match `\s+` then the tail pattern, with the regex engine's greedy
backtracking: prefer consuming more whitespace, fall back one character
at a time. -/
def wsTail : List Char → Option (List Char)
  | [] => Option.none
  | c :: rest =>
    if pyWs c then
      match wsTail rest with
      | some b => some b
      | Option.none => matchTail rest
    else Option.none

/-- Match the full pattern `"[^"]*"\s+"?([^"]+)"?$` anchored at
position 0 of `l`: a quoted delimiter (the `[^"]*` runs to the first
closing quote), then whitespace, then the group. -/
def matchAt (l : List Char) : Option (List Char) :=
  match l with
  | '"' :: rest =>
    match rest.dropWhile (fun c => !(c = '"')) with
    | '"' :: rest2 => wsTail rest2
    | _ => Option.none
  | _ => Option.none

/-- `re.search`: try the pattern at each start position left to
right. -/
def searchLine : List Char → Option (List Char)
  | [] => Option.none
  | c :: r =>
    match matchAt (c :: r) with
    | some g => some g
    | Option.none => searchLine r

/-- Python `decoded.rsplit(" ", 1)[-1]`: the portion after the last
space character (the whole string when there is none). -/
def rsplitLastPy (l : List Char) : List Char :=
  (l.reverse.takeWhile (fun c => !(c = ' '))).reverse

/-- Python `.strip('"')`: remove double quotes from both ends. -/
def stripQuotes (l : List Char) : List Char :=
  ((l.dropWhile (fun c => c = '"')).reverse.dropWhile (fun c => c = '"')).reverse

/-- Parse one LIST response line (lines 234-242): the regex group when
the pattern matches, else the last space-separated token stripped of
quotes. -/
def parse_list_line (item : String) : String :=
  match searchLine item.data with
  | some g => ⟨g⟩
  | Option.none => ⟨stripQuotes (rsplitLastPy item.data)⟩

/-- `IMAPClient.list_folders`: `[]` on a non-OK status; otherwise parse
every non-`None` response item and sort the names (Python's `sorted` on
strings: ascending lexicographic by code point, embedded as insertion
sort by `≤`). -/
def list_folders (status : Bool) (items : List (Option String)) : List String :=
  if status = false then []
  else List.insertionSort (· ≤ ·) (items.filterMap (fun it => it.map parse_list_line))

/-- C9: `list_folders` returns the parsed folder names sorted
lexicographically, and a non-OK listing status yields the empty list
rather than an error. -/
theorem C9_list_folders (status : Bool) (items : List (Option String)) :
    (status = false → list_folders status items = [])
    ∧ List.Sorted (· ≤ ·) (list_folders status items) := by
  constructor
  · intro h
    simp [list_folders, h]
  · unfold list_folders
    split
    · exact List.sorted_nil
    · exact List.sorted_insertionSort _ _

/-- Concrete LIST response lines (Gmail-style) used to instantiate
`C9_list_folders`. -/
def c9items : List (Option String) :=
  [some "(\\HasNoChildren) \"/\" \"Work Stuff\"", Option.none,
   some "(\\HasNoChildren) \"/\" INBOX"]

/-- Witness for `C9_list_folders`: the failure branch is empty and the
success branch is sorted. -/
theorem C9_list_folders_witness :
    list_folders false c9items = [] ∧ List.Sorted (· ≤ ·) (list_folders true c9items) :=
  ⟨(C9_list_folders false c9items).1 rfl, (C9_list_folders true c9items).2⟩

/-! ## HTML stripping (`imap.py` lines 29-41, claim C8)

`_strip_html` applies, in order: `re.sub(r"<style[^>]*>.*?</style>",
"", html, DOTALL|IGNORECASE)`, the same for `script`, `re.sub(r"<[^>]+>",
" ", ...)`, the four entity substitutions `&nbsp; &amp; &lt; &gt;`, and
`re.sub(r"\s+", " ", ...).strip()`.  Each regex pass is embedded as an
explicit left-to-right scanner with the engine's semantics: leftmost
match, `[^>]*>` runs to the first `>`, the lazy `.*?` stops at the
first closing tag, substitution resumes after the replaced span. -/

/-- ASCII lowercasing, as `re.IGNORECASE` acts on the letters these
patterns contain. -/
def lcase : Char → Char
  | 'A' => 'a' | 'B' => 'b' | 'C' => 'c' | 'D' => 'd' | 'E' => 'e' | 'F' => 'f'
  | 'G' => 'g' | 'H' => 'h' | 'I' => 'i' | 'J' => 'j' | 'K' => 'k' | 'L' => 'l'
  | 'M' => 'm' | 'N' => 'n' | 'O' => 'o' | 'P' => 'p' | 'Q' => 'q' | 'R' => 'r'
  | 'S' => 's' | 'T' => 't' | 'U' => 'u' | 'V' => 'v' | 'W' => 'w' | 'X' => 'x'
  | 'Y' => 'y' | 'Z' => 'z'
  | c => c

/-- Case-insensitive prefix test: does `l` start with the lowercase
pattern `pat`? -/
def ciStarts : List Char → List Char → Bool
  | [], _ => true
  | _ :: _, [] => false
  | p :: ps, c :: cs => (lcase c == p) && ciStarts ps cs

/-- Consume up to and including the first `>`: the `[^>]*>` step
(greedy `[^>]*` can only stop before the first `>`). -/
def skipToGt : List Char → Option (List Char)
  | [] => Option.none
  | c :: r => if c = '>' then some r else skipToGt r

/-- Return the remainder after the first case-insensitive occurrence
of `pat`: the lazy `.*?pat` step under DOTALL. -/
def dropThrough (pat : List Char) : List Char → Option (List Char)
  | [] => Option.none
  | c :: r =>
    if ciStarts pat (c :: r) then some ((c :: r).drop pat.length)
    else dropThrough pat r

/-- Match `<tag[^>]*>.*?</tag>` (DOTALL, IGNORECASE) at the head of
`l`, returning the remainder after the closing tag. -/
def tryBlock (tag : List Char) (l : List Char) : Option (List Char) :=
  if ciStarts ('<' :: tag) l then
    match skipToGt (l.drop (tag.length + 1)) with
    | some afterOpen => dropThrough ('<' :: '/' :: (tag ++ ['>'])) afterOpen
    | Option.none => Option.none
  else Option.none

/-- `skipToGt` strictly shrinks its input. -/
theorem skipToGt_length : ∀ {l r : List Char}, skipToGt l = some r → r.length < l.length := by
  intro l
  induction l with
  | nil => intro r h; simp [skipToGt] at h
  | cons c cs ih =>
    intro r h
    unfold skipToGt at h
    split at h
    · injection h with h2; rw [← h2]; simp
    · have := ih h; simp; omega

/-- `dropThrough` does not grow its input. -/
theorem dropThrough_length : ∀ {p l r : List Char},
    dropThrough p l = some r → r.length ≤ l.length := by
  intro p l
  induction l with
  | nil => intro r h; simp [dropThrough] at h
  | cons c cs ih =>
    intro r h
    unfold dropThrough at h
    split at h
    · injection h with h2; rw [← h2]; simp [List.length_drop]
    · have := ih h; simp; omega

/-- A successful `tryBlock` strictly shrinks its input. -/
theorem tryBlock_length : ∀ (tag l r : List Char),
    tryBlock tag l = some r → r.length < l.length := by
  intro tag l r h
  unfold tryBlock at h
  split at h
  · rename_i hci
    split at h
    · rename_i afterOpen heq
      have h1 := dropThrough_length h
      have h2 := skipToGt_length heq
      rw [List.length_drop] at h2
      have h4 : 1 ≤ l.length := by
        cases l
        · simp [ciStarts] at hci
        · simp
      omega
    · cases h
  · cases h

/-- One pass of `re.sub(r"<tag[^>]*>.*?</tag>", "", ...)`: scan left to
right, remove each matched block, continue after it; a position where
the pattern does not match is kept and scanning moves one character
right. -/
def stripBlocks (tag : List Char) (l : List Char) : List Char :=
  match l with
  | [] => []
  | c :: r =>
    match _h : tryBlock tag (c :: r) with
    | some rest => stripBlocks tag rest
    | Option.none => c :: stripBlocks tag r
termination_by l.length
decreasing_by
  · exact tryBlock_length _ _ _ _h
  · simp

/-- Match `[^>]+>` after a `<`: at least one non-`>` character, then
up to and past the first `>`. -/
def stripTagAt : List Char → Option (List Char)
  | [] => Option.none
  | c :: r => if c = '>' then Option.none else skipToGt r

/-- `stripTagAt` strictly shrinks its input. -/
theorem stripTagAt_length : ∀ {l r : List Char},
    stripTagAt l = some r → r.length < l.length := by
  intro l r h
  cases l with
  | nil => simp [stripTagAt] at h
  | cons c cs =>
    simp only [stripTagAt] at h
    split at h
    · cases h
    · have := skipToGt_length h
      simp
      omega

/-- One pass of `re.sub(r"<[^>]+>", " ", ...)`: each matched tag
becomes one space; an unmatched `<` is kept. -/
def stripTags (l : List Char) : List Char :=
  match l with
  | [] => []
  | c :: r =>
    if c = '<' then
      match _h : stripTagAt r with
      | some rest => ' ' :: stripTags rest
      | Option.none => '<' :: stripTags r
    else c :: stripTags r
termination_by l.length
decreasing_by
  · have := stripTagAt_length _h; simp; omega
  · simp
  · simp

/-- `re.sub(pat, rep, ...)` for a literal pattern: leftmost occurrence
replaced, scanning resumes after the replacement. -/
def replaceSub (pat rep : List Char) (l : List Char) : List Char :=
  match l with
  | [] => []
  | c :: r =>
    if h : pat ≠ [] ∧ pat.isPrefixOf (c :: r) then
      rep ++ replaceSub pat rep ((c :: r).drop pat.length)
    else c :: replaceSub pat rep r
termination_by l.length
decreasing_by
  · have : 1 ≤ pat.length := by
      cases hp : pat
      · exact absurd hp h.1
      · simp
    simp [List.length_drop]
    omega
  · simp

/-- `re.sub(r"\s+", " ", ...)`: each maximal whitespace run becomes a
single space. -/
def squashWs (l : List Char) : List Char :=
  match l with
  | [] => []
  | c :: r =>
    if pyWs c then ' ' :: squashWs (r.dropWhile pyWs)
    else c :: squashWs r
termination_by l.length
decreasing_by
  · exact Nat.lt_of_le_of_lt (List.dropWhile_sublist pyWs).length_le (Nat.lt_succ_self _)
  · simp

/-- Python `str.strip()` on the ASCII whitespace fragment. -/
def trimL (l : List Char) : List Char :=
  ((l.dropWhile pyWs).reverse.dropWhile pyWs).reverse

/-- `re.sub(r"\s+", " ", text).strip()` — the last step of
`_strip_html`. -/
def collapseWsL (l : List Char) : List Char := trimL (squashWs l)

/-- The entity passes, in source order: `&nbsp;` to a space, then
`&amp;`, `&lt;`, `&gt;`. -/
def decodeEntities (l : List Char) : List Char :=
  replaceSub "&gt;".data ['>']
    (replaceSub "&lt;".data ['<']
      (replaceSub "&amp;".data ['&']
        (replaceSub "&nbsp;".data [' '] l)))

/-- `_strip_html` (lines 29-41): style blocks out, then script blocks,
then remaining tags to spaces, then entities, then whitespace
collapse and strip. -/
def strip_html (l : List Char) : List Char :=
  collapseWsL (decodeEntities (stripTags (stripBlocks "script".data (stripBlocks "style".data l))))

/-! ## Snippets (`imap.py` lines 16, 44-59, claim C7) -/

/-- `SNIPPET_MAX_CHARS = 500`. -/
def SNIPPET_MAX_CHARS : Nat := 500

/-- Accumulator pass of Python `str.split()`: maximal whitespace-free
words. -/
def wordsAux : List Char → List Char → List (List Char)
  | [], acc => if acc = [] then [] else [acc.reverse]
  | c :: r, acc =>
    if pyWs c then
      if acc = [] then wordsAux r [] else acc.reverse :: wordsAux r []
    else wordsAux r (c :: acc)

/-- Python `text.split()`. -/
def wordsOf (l : List Char) : List (List Char) := wordsAux l []

/-- `' '.join(text.split())`: the whitespace-collapsed text that
`textwrap.shorten` works on. -/
def pyCollapse (l : List Char) : List Char := List.intercalate [' '] (wordsOf l)

/-- The greedy single-line fitting of `TextWrapper(max_lines=1)`:
extend the accumulated line word by word (single space separators)
while the line plus the placeholder still fits in `width`. -/
def fitWordsGo (width phLen : Nat) : List Char → List (List Char) → List Char
  | cur, [] => cur
  | [], w :: ws =>
    if w.length + phLen ≤ width then fitWordsGo width phLen w ws else []
  | c :: cs, w :: ws =>
    if ((c :: cs) ++ ' ' :: w).length + phLen ≤ width then
      fitWordsGo width phLen ((c :: cs) ++ ' ' :: w) ws
    else c :: cs

/-- Model of Python `textwrap.shorten(text, width, placeholder=ph)`:
collapse whitespace (`' '.join(text.strip().split())`); if the result
fits in `width`, return it unchanged; otherwise keep the longest word
prefix that fits together with the placeholder and append the
placeholder — just the (already stripped) placeholder when not even
the first word fits, matching CPython which breaks the over-long first
word and then pops the fragment to make room.  CPython's extra break
opportunities after hyphens are not modelled: the model truncates at
spaces only, which changes neither the fits-unchanged case nor the
length and placeholder-suffix properties proved below. -/
def textwrap_shorten (text : List Char) (width : Nat) (ph : List Char) : List Char :=
  let cw := pyCollapse text
  if cw.length ≤ width then cw
  else
    let kept := fitWordsGo width ph.length [] (wordsOf text)
    if kept = [] then ph else kept ++ ph

/-- The placeholder `"..."`. -/
def ellipsisL : List Char := "...".data

/-- The decoded body parts `_extract_body` distinguishes: the preferred
`text/plain` part and the fallback `text/html` part.  A part whose
`get_content()` is not a string fails the source's `isinstance` guard
and behaves as an absent part, so it is modelled as `Option.none`. -/
structure MimeMsg where
  plain : Option (List Char)
  html : Option (List Char)

/-- `_extract_body` (lines 44-59): shorten the stripped plain part to
the snippet budget; else strip the HTML part and shorten that; else
the empty string. -/
def extract_body (m : MimeMsg) : List Char :=
  match m.plain with
  | some t => textwrap_shorten (trimL t) SNIPPET_MAX_CHARS ellipsisL
  | Option.none =>
    match m.html with
    | some h => textwrap_shorten (strip_html h) SNIPPET_MAX_CHARS ellipsisL
    | Option.none => []

/-- All-whitespace input yields the words of the accumulator alone. -/
theorem wordsAux_all_ws : ∀ (w : List Char) (acc : List Char),
    (∀ c ∈ w, pyWs c = true) →
    wordsAux w acc = if acc = [] then [] else [acc.reverse] := by
  intro w
  induction w with
  | nil => intro acc _; rfl
  | cons c w' ih =>
    intro acc hw
    have hc : pyWs c = true := hw c (List.mem_cons_self _ _)
    have hrest : ∀ x ∈ w', pyWs x = true := fun x hx => hw x (List.mem_cons_of_mem _ hx)
    have h0 : wordsAux w' [] = [] := by
      rw [ih [] hrest]
      rfl
    simp only [wordsAux, hc, if_pos]
    split
    · simpa using h0
    · simpa using h0

/-- Leading whitespace does not change the word list. -/
theorem wordsAux_dropWhile (l : List Char) :
    wordsAux (l.dropWhile pyWs) [] = wordsAux l [] := by
  induction l with
  | nil => rfl
  | cons c r ih =>
    by_cases hc : pyWs c = true
    · rw [List.dropWhile_cons_of_pos hc]
      rw [ih]
      simp [wordsAux, hc]
    · rw [List.dropWhile_cons_of_neg hc]

/-- Trailing whitespace does not change the word list. -/
theorem wordsAux_append_ws : ∀ (l w : List Char) (acc : List Char),
    (∀ c ∈ w, pyWs c = true) →
    wordsAux (l ++ w) acc = wordsAux l acc := by
  intro l
  induction l with
  | nil =>
    intro w acc hw
    rw [List.nil_append, wordsAux_all_ws w acc hw]
    rfl
  | cons c l' ih =>
    intro w acc hw
    by_cases hc : pyWs c = true
    · simp only [List.cons_append, wordsAux, hc, if_pos]
      split
      · simp [ih w [] hw]
      · simp [ih w [] hw]
    · simp only [List.cons_append, wordsAux, if_neg hc]
      exact ih w (c :: acc) hw

/-- `str.strip()` does not change `str.split()`. -/
theorem wordsOf_trimL (t : List Char) : wordsOf (trimL t) = wordsOf t := by
  unfold wordsOf trimL
  have hu : wordsAux (t.dropWhile pyWs) [] = wordsAux t [] := wordsAux_dropWhile t
  set u := t.dropWhile pyWs with hu_def
  have hdecomp : u = (u.reverse.dropWhile pyWs).reverse ++ (u.reverse.takeWhile pyWs).reverse := by
    have h1 := List.takeWhile_append_dropWhile pyWs u.reverse
    calc u = u.reverse.reverse := by rw [List.reverse_reverse]
      _ = (u.reverse.takeWhile pyWs ++ u.reverse.dropWhile pyWs).reverse := by rw [h1]
      _ = (u.reverse.dropWhile pyWs).reverse ++ (u.reverse.takeWhile pyWs).reverse := by
          rw [List.reverse_append]
  have hws : ∀ c ∈ (u.reverse.takeWhile pyWs).reverse, pyWs c = true := by
    intro c hc
    exact List.mem_takeWhile_imp (List.mem_reverse.mp hc)
  calc wordsAux (u.reverse.dropWhile pyWs).reverse []
      = wordsAux ((u.reverse.dropWhile pyWs).reverse ++ (u.reverse.takeWhile pyWs).reverse) [] :=
        (wordsAux_append_ws _ _ [] hws).symm
    _ = wordsAux u [] := by rw [← hdecomp]
    _ = wordsAux t [] := hu

/-- The fitted line is empty or leaves room for the placeholder. -/
theorem fitWordsGo_spec (width phLen : Nat) :
    ∀ (ws : List (List Char)) (cur : List Char),
      cur = [] ∨ cur.length + phLen ≤ width →
      (fitWordsGo width phLen cur ws = [] ∨
        (fitWordsGo width phLen cur ws).length + phLen ≤ width) := by
  intro ws
  induction ws with
  | nil => intro cur h; simpa [fitWordsGo] using h
  | cons w ws ih =>
    intro cur h
    cases cur with
    | nil =>
      simp only [fitWordsGo]
      split
      · exact ih _ (Or.inr (by assumption))
      · exact Or.inl rfl
    | cons c cs =>
      simp only [fitWordsGo]
      split
      · exact ih _ (Or.inr (by assumption))
      · exact h

/-- C7 (counterexample): a plain-text body containing a newline.  The
snippet is the whitespace-collapsed `"a b"`, not the body `"a\nb"`
truncated to 500 characters (which, at 3 characters, is the body
itself): `textwrap.shorten` collapses whitespace before truncating. -/
theorem C7_counterexample :
    extract_body ⟨some "a\nb".data, Option.none⟩ = "a b".data
    ∧ "a\nb".data.length ≤ 500
    ∧ extract_body ⟨some "a\nb".data, Option.none⟩ ≠ "a\nb".data := by
  decide

/-- C7 (amended): for a message whose only body part is plain text,
the snippet is the whitespace-collapsed body (`' '.join(body.split())`
— no entity decoding and no other rewriting is applied to a plain
body) whenever that collapsed form is within the 500-character budget;
when it exceeds the budget, the snippet is at most 500 characters and
ends with the ellipsis marker. -/
theorem C7_plain_snippet (t : List Char) (m : MimeMsg) (hm : m.plain = some t) :
    ((pyCollapse t).length ≤ SNIPPET_MAX_CHARS → extract_body m = pyCollapse t)
    ∧ (SNIPPET_MAX_CHARS < (pyCollapse t).length →
        (extract_body m).length ≤ SNIPPET_MAX_CHARS ∧ ellipsisL <:+ extract_body m) := by
  have hext : extract_body m = textwrap_shorten (trimL t) SNIPPET_MAX_CHARS ellipsisL := by
    simp [extract_body, hm]
  have hcw : pyCollapse (trimL t) = pyCollapse t := by
    simp [pyCollapse, wordsOf_trimL]
  constructor
  · intro hle
    rw [hext]
    simp only [textwrap_shorten, hcw]
    rw [if_pos hle]
  · intro hgt
    rw [hext]
    simp only [textwrap_shorten, hcw]
    rw [if_neg (by omega)]
    have hspec := fitWordsGo_spec SNIPPET_MAX_CHARS ellipsisL.length
      (wordsOf (trimL t)) [] (Or.inl rfl)
    have h3 : ellipsisL.length = 3 := rfl
    split
    · exact ⟨by simp [h3, SNIPPET_MAX_CHARS], List.suffix_refl _⟩
    · rename_i hne
      constructor
      · rcases hspec with h0 | hlen
        · exact absurd h0 hne
        · rw [List.length_append]
          omega
      · exact List.suffix_append _ _

/-- Witness for `C7_plain_snippet` on the short plain body
`"hello  world"`. -/
theorem C7_plain_snippet_witness :
    (MimeMsg.mk (some "hello  world".data) Option.none).plain = some "hello  world".data
    ∧ (((pyCollapse "hello  world".data).length ≤ SNIPPET_MAX_CHARS →
        extract_body ⟨some "hello  world".data, Option.none⟩ = pyCollapse "hello  world".data)
      ∧ (SNIPPET_MAX_CHARS < (pyCollapse "hello  world".data).length →
        (extract_body ⟨some "hello  world".data, Option.none⟩).length ≤ SNIPPET_MAX_CHARS
          ∧ ellipsisL <:+ extract_body ⟨some "hello  world".data, Option.none⟩)) :=
  ⟨rfl, C7_plain_snippet "hello  world".data ⟨some "hello  world".data, Option.none⟩ rfl⟩

/-! ## Structured HTML and the C8 property

To state "script and style contents never appear", HTML documents are
generated from a node list: text runs (no `<`), simple tags, and
script/style blocks whose contents contain no `<`.  `wfNodes` is the
(decidable) well-formedness check; `visible` is the text the stripper
should keep: text runs verbatim, each tag one space, block contents
nothing. -/

/-- A generated HTML fragment. -/
inductive HtmlNode
  | text (s : List Char)
  | tag (t : List Char)
  | script (c : List Char)
  | style (c : List Char)

/-- Render one node to HTML source. -/
def render1 : HtmlNode → List Char
  | HtmlNode.text s => s
  | HtmlNode.tag t => '<' :: t ++ ['>']
  | HtmlNode.script c => "<script>".data ++ c ++ "</script>".data
  | HtmlNode.style c => "<style>".data ++ c ++ "</style>".data

/-- Render a node list. -/
def render : List HtmlNode → List Char
  | [] => []
  | n :: ns => render1 n ++ render ns

/-- ASCII letter or digit. -/
def isAlnumC (c : Char) : Bool :=
  (decide ('a' ≤ c) && decide (c ≤ 'z')) || (decide ('A' ≤ c) && decide (c ≤ 'Z'))
    || (decide ('0' ≤ c) && decide (c ≤ '9'))

/-- Well-formedness of one node: text and block contents contain no
`<`; a tag name is a non-empty alphanumeric word that is not a
`style`/`script` opener. -/
def wfNode : HtmlNode → Bool
  | HtmlNode.text s => s.all (fun c => !(c = '<'))
  | HtmlNode.tag t =>
      (!(t = [])) && t.all isAlnumC
        && !("style".data.isPrefixOf (t.map lcase))
        && !("script".data.isPrefixOf (t.map lcase))
  | HtmlNode.script c => c.all (fun x => !(x = '<'))
  | HtmlNode.style c => c.all (fun x => !(x = '<'))

/-- Well-formedness of a node list. -/
def wfNodes (ns : List HtmlNode) : Bool := ns.all wfNode

/-- The text the stripper should keep: text runs verbatim, tags as one
space, script and style blocks nothing. -/
def visible : List HtmlNode → List Char
  | [] => []
  | HtmlNode.text s :: ns => s ++ visible ns
  | HtmlNode.tag _ :: ns => ' ' :: visible ns
  | HtmlNode.script _ :: ns => visible ns
  | HtmlNode.style _ :: ns => visible ns

/-- Style node test. -/
def isStyleN : HtmlNode → Bool
  | HtmlNode.style _ => true
  | _ => false

/-- Script node test. -/
def isScriptN : HtmlNode → Bool
  | HtmlNode.script _ => true
  | _ => false

/-- Lowercasing moves no character onto `<`. -/
theorem lcase_eq_lt {c : Char} (h : lcase c = '<') : c = '<' := by
  unfold lcase at h
  split at h
  all_goals first | (exact absurd h (by decide)) | exact h

/-- A character other than `<` never case-matches the `<` of a
pattern. -/
theorem lcase_beq_lt_eq_false {c : Char} (h : c ≠ '<') : (lcase c == '<') = false :=
  beq_eq_false_iff_ne.mpr (fun hl => h (lcase_eq_lt hl))

/-- Lowercase letters are fixed by `lcase`. -/
theorem lcase_lower {c : Char} (h1 : 'a' ≤ c) : lcase c = c := by
  unfold lcase
  split
  all_goals first | rfl | (exact absurd h1 (by decide))

/-- A pattern of `lcase`-fixed characters case-matches itself. -/
theorem ciStarts_self_of : ∀ (pat z : List Char),
    (∀ c ∈ pat, lcase c = c) → ciStarts pat (pat ++ z) = true := by
  intro pat
  induction pat with
  | nil => intro z _; rfl
  | cons p ps ih =>
    intro z h
    simp only [List.cons_append, ciStarts]
    rw [h p (List.mem_cons_self _ _), beq_self_eq_true]
    simpa using ih z (fun c hc => h c (List.mem_cons_of_mem _ hc))

/-- A lowercase-letter pattern that is not a case-prefix of a tag name
does not match across the tag's closing `>`. -/
theorem ciStarts_tag_gt : ∀ (pat : List Char), (∀ p ∈ pat, 'a' ≤ p ∧ p ≤ 'z') →
    ∀ (t r : List Char), pat.isPrefixOf (t.map lcase) = false →
      ciStarts pat (t ++ '>' :: r) = false := by
  intro pat
  induction pat with
  | nil =>
    intro _ t r h
    simp [List.isPrefixOf] at h
  | cons p ps ih =>
    intro hpat t r h
    cases t with
    | nil =>
      simp only [List.nil_append, ciStarts]
      rw [show lcase '>' = '>' from rfl]
      have hp := hpat p (List.mem_cons_self _ _)
      rw [beq_eq_false_iff_ne.mpr (fun hh : '>' = p => absurd (hh ▸ hp.1) (by decide))]
      rfl
    | cons a t' =>
      simp only [List.cons_append, ciStarts, List.append_eq]
      simp only [List.map_cons, List.isPrefixOf] at h
      by_cases hb : (lcase a == p) = true
      · have hba : lcase a = p := eq_of_beq hb
        have h2 : ps.isPrefixOf (t'.map lcase) = false := by
          rw [hba, beq_self_eq_true] at h
          simpa using h
        rw [ih (fun q hq => hpat q (List.mem_cons_of_mem _ hq)) t' r h2]
        simp
      · have hb' : (lcase a == p) = false := by
          revert hb
          cases lcase a == p <;> simp
        rw [hb']
        rfl

/-- Unfolding: `stripBlocks` of the empty list. -/
theorem stripBlocks_nil (tag : List Char) : stripBlocks tag [] = [] := by
  rw [stripBlocks]

/-- Unfolding: a matched block is removed and scanning continues after
it. -/
theorem stripBlocks_cons_some {tag : List Char} {c : Char} {r rest : List Char}
    (h : tryBlock tag (c :: r) = some rest) :
    stripBlocks tag (c :: r) = stripBlocks tag rest := by
  conv_lhs => rw [stripBlocks]
  split
  · rename_i rest' h'
    rw [h] at h'
    injection h' with h2
    rw [h2]
  · rename_i h'
    rw [h] at h'
    cases h'

/-- Unfolding: an unmatched position is kept and scanning moves one
character right. -/
theorem stripBlocks_cons_none {tag : List Char} {c : Char} {r : List Char}
    (h : tryBlock tag (c :: r) = Option.none) :
    stripBlocks tag (c :: r) = c :: stripBlocks tag r := by
  conv_lhs => rw [stripBlocks]
  split
  · rename_i rest' h'
    rw [h] at h'
    cases h'
  · rfl

/-- Characters other than `<` pass through a block-stripping pass. -/
theorem stripBlocks_safe (tag : List Char) :
    ∀ (s r : List Char), (∀ c ∈ s, c ≠ '<') →
      stripBlocks tag (s ++ r) = s ++ stripBlocks tag r := by
  intro s
  induction s with
  | nil => intro r _; rfl
  | cons c s' ih =>
    intro r h
    have hc : c ≠ '<' := h c (List.mem_cons_self _ _)
    have htb : tryBlock tag (c :: (s' ++ r)) = Option.none := by
      unfold tryBlock
      rw [if_neg]
      simp [ciStarts, lcase_beq_lt_eq_false hc]
    rw [List.cons_append, stripBlocks_cons_none htb,
      ih r (fun x hx => h x (List.mem_cons_of_mem _ hx))]
    rfl

/-- The lazy closing-tag search skips `<`-free text. -/
theorem dropThrough_safe (p : List Char) :
    ∀ (x z : List Char), (∀ c ∈ x, c ≠ '<') →
      dropThrough ('<' :: p) (x ++ z) = dropThrough ('<' :: p) z := by
  intro x
  induction x with
  | nil => intro z _; rfl
  | cons c x' ih =>
    intro z h
    have hc : c ≠ '<' := h c (List.mem_cons_self _ _)
    simp only [List.cons_append, dropThrough]
    rw [if_neg (by simp [ciStarts, lcase_beq_lt_eq_false hc])]
    exact ih z (fun y hy => h y (List.mem_cons_of_mem _ hy))

/-- The lazy closing-tag search stops exactly at the closing tag. -/
theorem dropThrough_exact (p z : List Char) (hne : p ≠ [])
    (hp : ∀ c ∈ p, lcase c = c) :
    dropThrough p (p ++ z) = some z := by
  cases p with
  | nil => exact absurd rfl hne
  | cons a p' =>
    simp only [List.cons_append, dropThrough]
    rw [if_pos]
    · simp only [List.append_eq, List.length_cons, List.drop_succ_cons]
      rw [List.drop_left p' z]
    · have := ciStarts_self_of (a :: p') z hp
      simpa using this

/-- Unpack a `List.all` no-`<` fact. -/
theorem all_ne_lt {s : List Char} (h : s.all (fun c => !(c = '<')) = true) :
    ∀ c ∈ s, c ≠ '<' := by
  intro c hc
  have := List.all_eq_true.mp h c hc
  simpa using this

/-- Alphanumeric characters are neither `<` nor `>`. -/
theorem isAlnumC_ne {c : Char} (h : isAlnumC c = true) : c ≠ '<' ∧ c ≠ '>' := by
  constructor <;> intro hc <;> subst hc <;> exact absurd h (by decide)

/-- A whole well-matched block at the head is removed. -/
theorem stripBlocks_block (tag c r : List Char)
    (htag : ∀ x ∈ tag, 'a' ≤ x ∧ x ≤ 'z') (hc : ∀ x ∈ c, x ≠ '<') :
    stripBlocks tag (('<' :: tag) ++ ('>' :: (c ++ (('<' :: '/' :: (tag ++ ['>'])) ++ r))))
      = stripBlocks tag r := by
  have hlc : ∀ x ∈ tag, lcase x = x := fun x hx => lcase_lower (htag x hx).1
  have hcloser_lc : ∀ x ∈ ('<' :: '/' :: (tag ++ ['>'])), lcase x = x := by
    intro x hx
    rcases List.mem_cons.mp hx with rfl | hx
    · rfl
    rcases List.mem_cons.mp hx with rfl | hx
    · rfl
    rcases List.mem_append.mp hx with hx | hx
    · exact hlc x hx
    · simp at hx
      subst hx
      rfl
  have hopen : tryBlock tag
      (('<' :: tag) ++ ('>' :: (c ++ (('<' :: '/' :: (tag ++ ['>'])) ++ r)))) = some r := by
    unfold tryBlock
    rw [if_pos]
    · have hd : (('<' :: tag) ++ ('>' :: (c ++ (('<' :: '/' :: (tag ++ ['>'])) ++ r)))).drop
          (tag.length + 1) = '>' :: (c ++ (('<' :: '/' :: (tag ++ ['>'])) ++ r)) := by
        rw [show tag.length + 1 = ('<' :: tag).length from by simp]
        exact List.drop_left _ _
      rw [hd]
      rw [show skipToGt ('>' :: (c ++ (('<' :: '/' :: (tag ++ ['>'])) ++ r)))
            = some (c ++ (('<' :: '/' :: (tag ++ ['>'])) ++ r)) from by simp [skipToGt]]
      show dropThrough ('<' :: '/' :: (tag ++ ['>'])) (c ++ (('<' :: '/' :: (tag ++ ['>'])) ++ r))
        = some r
      rw [dropThrough_safe ('/' :: (tag ++ ['>'])) c _ hc]
      exact dropThrough_exact _ r (by simp) hcloser_lc
    · exact ciStarts_self_of ('<' :: tag) ('>' :: (c ++ (('<' :: '/' :: (tag ++ ['>'])) ++ r)))
        (by
          intro x hx
          rcases List.mem_cons.mp hx with rfl | hx
          · rfl
          · exact hlc x hx)
  exact stripBlocks_cons_some hopen

/-- A simple tag whose name is not a case-prefix of the block tag
passes through a block-stripping pass. -/
theorem stripBlocks_tag_node (tag t r : List Char)
    (htag : ∀ x ∈ tag, 'a' ≤ x ∧ x ≤ 'z')
    (ht : ∀ x ∈ t, x ≠ '<')
    (hnp : tag.isPrefixOf (t.map lcase) = false) :
    stripBlocks tag ('<' :: (t ++ '>' :: r)) = '<' :: (t ++ '>' :: stripBlocks tag r) := by
  have htb : tryBlock tag ('<' :: (t ++ '>' :: r)) = Option.none := by
    unfold tryBlock
    rw [if_neg]
    intro hcontra
    simp only [ciStarts] at hcontra
    rw [show lcase '<' = '<' from rfl, beq_self_eq_true, Bool.true_and] at hcontra
    rw [ciStarts_tag_gt tag htag t r hnp] at hcontra
    cases hcontra
  rw [stripBlocks_cons_none htb]
  have hsafe : ∀ x ∈ t ++ ['>'], x ≠ '<' := by
    intro x hx
    rcases List.mem_append.mp hx with h | h
    · exact ht x h
    · simp at h
      subst h
      decide
  have hthis := stripBlocks_safe tag (t ++ ['>']) r hsafe
  simp only [List.append_assoc, List.singleton_append] at hthis
  rw [hthis]

/-- A script block passes untouched through the style-stripping pass. -/
theorem stripBlocks_pass_script (c R : List Char) (hcne : ∀ x ∈ c, x ≠ '<') :
    stripBlocks "style".data (("<script>".data ++ c ++ "</script>".data) ++ R)
      = "<script>".data ++ c ++ "</script>".data ++ stripBlocks "style".data R := by
  have e1 : ("<script>".data ++ c ++ "</script>".data) ++ R
      = '<' :: (("script>".data ++ c) ++ ('<' :: ("/script>".data ++ R))) := by
    rw [show ("<script>".data : List Char) = '<' :: "script>".data from rfl,
      show ("</script>".data : List Char) = '<' :: "/script>".data from rfl]
    simp [List.append_assoc]
  rw [e1]
  have h1 : tryBlock "style".data
      ('<' :: (("script>".data ++ c) ++ ('<' :: ("/script>".data ++ R)))) = Option.none := rfl
  rw [stripBlocks_cons_none h1]
  have h2 : ∀ x ∈ ("script>".data ++ c), x ≠ '<' := by
    intro x hx
    rcases List.mem_append.mp hx with h | h
    · have hcon : ∀ y ∈ ("script>".data : List Char), y ≠ '<' := by decide
      exact hcon x h
    · exact hcne x h
  rw [stripBlocks_safe "style".data ("script>".data ++ c) _ h2]
  have h5 : tryBlock "style".data ('<' :: ("/script>".data ++ R)) = Option.none := rfl
  rw [stripBlocks_cons_none h5]
  have h6 : ∀ x ∈ ("/script>".data : List Char), x ≠ '<' := by decide
  rw [stripBlocks_safe "style".data "/script>".data R h6]
  rw [show ("<script>".data : List Char) = '<' :: "script>".data from rfl,
    show ("</script>".data : List Char) = '<' :: "/script>".data from rfl]
  simp [List.append_assoc]

/-- A style block passes untouched through the script-stripping pass. -/
theorem stripBlocks_pass_style (c R : List Char) (hcne : ∀ x ∈ c, x ≠ '<') :
    stripBlocks "script".data (("<style>".data ++ c ++ "</style>".data) ++ R)
      = "<style>".data ++ c ++ "</style>".data ++ stripBlocks "script".data R := by
  have e1 : ("<style>".data ++ c ++ "</style>".data) ++ R
      = '<' :: (("style>".data ++ c) ++ ('<' :: ("/style>".data ++ R))) := by
    rw [show ("<style>".data : List Char) = '<' :: "style>".data from rfl,
      show ("</style>".data : List Char) = '<' :: "/style>".data from rfl]
    simp [List.append_assoc]
  rw [e1]
  have h1 : tryBlock "script".data
      ('<' :: (("style>".data ++ c) ++ ('<' :: ("/style>".data ++ R)))) = Option.none := rfl
  rw [stripBlocks_cons_none h1]
  have h2 : ∀ x ∈ ("style>".data ++ c), x ≠ '<' := by
    intro x hx
    rcases List.mem_append.mp hx with h | h
    · have hcon : ∀ y ∈ ("style>".data : List Char), y ≠ '<' := by decide
      exact hcon x h
    · exact hcne x h
  rw [stripBlocks_safe "script".data ("style>".data ++ c) _ h2]
  have h5 : tryBlock "script".data ('<' :: ("/style>".data ++ R)) = Option.none := rfl
  rw [stripBlocks_cons_none h5]
  have h6 : ∀ x ∈ ("/style>".data : List Char), x ≠ '<' := by decide
  rw [stripBlocks_safe "script".data "/style>".data R h6]
  rw [show ("<style>".data : List Char) = '<' :: "style>".data from rfl,
    show ("</style>".data : List Char) = '<' :: "/style>".data from rfl]
  simp [List.append_assoc]

/-- Unfolding: `stripTags` of the empty list. -/
theorem stripTags_nil : stripTags [] = [] := by
  rw [stripTags]

/-- A non-`<` character passes through the tag-stripping pass. -/
theorem stripTags_cons_other {c : Char} {r : List Char} (hc : c ≠ '<') :
    stripTags (c :: r) = c :: stripTags r := by
  conv_lhs => rw [stripTags]
  rw [if_neg hc]

/-- A `<` opening a matched tag becomes one space. -/
theorem stripTags_cons_lt {r rest : List Char} (h : stripTagAt r = some rest) :
    stripTags ('<' :: r) = ' ' :: stripTags rest := by
  conv_lhs => rw [stripTags]
  rw [if_pos rfl]
  split
  · rename_i rest' h'
    rw [h] at h'
    injection h' with h2
    rw [h2]
  · rename_i h'
    rw [h] at h'
    cases h'

/-- `skipToGt` passes `>`-free text and stops at the `>`. -/
theorem skipToGt_safe : ∀ (s r : List Char), (∀ c ∈ s, c ≠ '>') →
    skipToGt (s ++ '>' :: r) = some r := by
  intro s
  induction s with
  | nil => intro r _; simp [skipToGt]
  | cons c s' ih =>
    intro r h
    simp only [List.cons_append, skipToGt]
    rw [if_neg (h c (List.mem_cons_self _ _))]
    exact ih r fun x hx => h x (List.mem_cons_of_mem _ hx)

/-- `<`-free text passes through the tag-stripping pass. -/
theorem stripTags_safe : ∀ (s r : List Char), (∀ c ∈ s, c ≠ '<') →
    stripTags (s ++ r) = s ++ stripTags r := by
  intro s
  induction s with
  | nil => intro r _; rfl
  | cons c s' ih =>
    intro r h
    rw [List.cons_append, stripTags_cons_other (h c (List.mem_cons_self _ _)),
      ih r (fun x hx => h x (List.mem_cons_of_mem _ hx))]
    rfl

/-- A rendered simple tag becomes exactly one space. -/
theorem stripTags_tag (t r : List Char) (hne : t ≠ []) (ht : ∀ x ∈ t, x ≠ '>') :
    stripTags ('<' :: (t ++ '>' :: r)) = ' ' :: stripTags r := by
  cases t with
  | nil => exact absurd rfl hne
  | cons a t' =>
    have hat : stripTagAt ((a :: t') ++ '>' :: r) = some r := by
      simp only [List.cons_append, stripTagAt]
      rw [if_neg (ht a (List.mem_cons_self _ _))]
      exact skipToGt_safe t' r fun x hx => ht x (List.mem_cons_of_mem _ hx)
    exact stripTags_cons_lt hat

/-- Well-formedness restricts to any filtered sublist. -/
theorem wfNodes_filter (p : HtmlNode → Bool) {ns : List HtmlNode}
    (h : wfNodes ns = true) : wfNodes (ns.filter p) = true := by
  rw [wfNodes, List.all_eq_true]
  intro n hn
  exact List.all_eq_true.mp h n (List.mem_filter.mp hn).1

/-- `visible` already ignores style nodes. -/
theorem visible_filter_style : ∀ (ns : List HtmlNode),
    visible (ns.filter (fun n => !(isStyleN n))) = visible ns := by
  intro ns
  induction ns with
  | nil => rfl
  | cons n ns ih =>
    cases n with
    | text s =>
      rw [List.filter_cons_of_pos (by rfl)]
      show s ++ visible _ = s ++ visible ns
      rw [ih]
    | tag t =>
      rw [List.filter_cons_of_pos (by rfl)]
      show ' ' :: visible _ = ' ' :: visible ns
      rw [ih]
    | script c =>
      rw [List.filter_cons_of_pos (by rfl)]
      show visible _ = visible ns
      exact ih
    | style c =>
      rw [List.filter_cons_of_neg (by simp [isStyleN])]
      exact ih

/-- `visible` already ignores script nodes. -/
theorem visible_filter_script : ∀ (ns : List HtmlNode),
    visible (ns.filter (fun n => !(isScriptN n))) = visible ns := by
  intro ns
  induction ns with
  | nil => rfl
  | cons n ns ih =>
    cases n with
    | text s =>
      rw [List.filter_cons_of_pos (by rfl)]
      show s ++ visible _ = s ++ visible ns
      rw [ih]
    | tag t =>
      rw [List.filter_cons_of_pos (by rfl)]
      show ' ' :: visible _ = ' ' :: visible ns
      rw [ih]
    | script c =>
      rw [List.filter_cons_of_neg (by simp [isScriptN])]
      exact ih
    | style c =>
      rw [List.filter_cons_of_pos (by rfl)]
      show visible _ = visible ns
      exact ih

/-- The tag-name facts packed in `wfNode` for a tag node. -/
theorem wfNode_tag_unpack {t : List Char} (h : wfNode (HtmlNode.tag t) = true) :
    t ≠ [] ∧ (∀ x ∈ t, x ≠ '<' ∧ x ≠ '>')
      ∧ "style".data.isPrefixOf (t.map lcase) = false
      ∧ "script".data.isPrefixOf (t.map lcase) = false := by
  simp only [wfNode, Bool.and_eq_true, Bool.not_eq_true', List.all_eq_true] at h
  obtain ⟨⟨⟨h1, h2⟩, h3⟩, h4⟩ := h
  refine ⟨by simpa using h1, fun x hx => isAlnumC_ne (h2 x hx), h3, h4⟩

/-- The style-stripping pass removes exactly the style nodes of a
well-formed render. -/
theorem stripBlocks_style_render : ∀ (ns : List HtmlNode), wfNodes ns = true →
    stripBlocks "style".data (render ns) = render (ns.filter (fun n => !(isStyleN n))) := by
  intro ns
  induction ns with
  | nil => intro _; exact stripBlocks_nil _
  | cons n ns ih =>
    intro h
    rw [wfNodes, List.all_cons, Bool.and_eq_true] at h
    obtain ⟨hn, hns⟩ := h
    have hns' : wfNodes ns = true := hns
    cases n with
    | text s =>
      have hs := all_ne_lt (by simpa [wfNode] using hn)
      show stripBlocks "style".data (s ++ render ns) = _
      rw [stripBlocks_safe _ s _ hs, ih hns', List.filter_cons_of_pos (by rfl)]
      rfl
    | tag t =>
      obtain ⟨hne, hchars, hsty, _⟩ := wfNode_tag_unpack hn
      show stripBlocks "style".data (('<' :: t ++ ['>']) ++ render ns) = _
      have e1 : ('<' :: t ++ ['>']) ++ render ns = '<' :: (t ++ '>' :: render ns) := by
        simp
      rw [e1, stripBlocks_tag_node "style".data t (render ns) (by decide)
        (fun x hx => (hchars x hx).1) hsty, ih hns', List.filter_cons_of_pos (by rfl)]
      show _ = ('<' :: t ++ ['>']) ++ render (List.filter _ ns)
      simp
    | script c =>
      have hcne := all_ne_lt (by simpa [wfNode] using hn)
      show stripBlocks "style".data (("<script>".data ++ c ++ "</script>".data) ++ render ns) = _
      rw [stripBlocks_pass_script c (render ns) hcne, ih hns',
        List.filter_cons_of_pos (by rfl)]
      show _ = ("<script>".data ++ c ++ "</script>".data) ++ render (List.filter _ ns)
      simp
    | style c =>
      have hcne := all_ne_lt (by simpa [wfNode] using hn)
      show stripBlocks "style".data (("<style>".data ++ c ++ "</style>".data) ++ render ns) = _
      have e1 : ("<style>".data ++ c ++ "</style>".data) ++ render ns
          = ('<' :: "style".data) ++ ('>' :: (c ++ (('<' :: '/' :: ("style".data ++ ['>'])) ++ render ns))) := by
        rw [show ("<style>".data : List Char) = ('<' :: "style".data) ++ ['>'] from rfl,
          show ("</style>".data : List Char) = '<' :: '/' :: ("style".data ++ ['>']) from rfl]
        simp [List.append_assoc]
      rw [e1, stripBlocks_block "style".data c (render ns) (by decide) hcne, ih hns',
        List.filter_cons_of_neg (by simp [isStyleN])]

/-- The script-stripping pass removes exactly the script nodes of a
well-formed, style-free render. -/
theorem stripBlocks_script_render : ∀ (ns : List HtmlNode), wfNodes ns = true →
    ns.all (fun n => !(isStyleN n)) = true →
    stripBlocks "script".data (render ns) = render (ns.filter (fun n => !(isScriptN n))) := by
  intro ns
  induction ns with
  | nil => intro _ _; exact stripBlocks_nil _
  | cons n ns ih =>
    intro h hsty
    rw [wfNodes, List.all_cons, Bool.and_eq_true] at h
    obtain ⟨hn, hns⟩ := h
    have hns' : wfNodes ns = true := hns
    rw [List.all_cons, Bool.and_eq_true] at hsty
    obtain ⟨hsty1, hstyr⟩ := hsty
    cases n with
    | text s =>
      have hs := all_ne_lt (by simpa [wfNode] using hn)
      show stripBlocks "script".data (s ++ render ns) = _
      rw [stripBlocks_safe _ s _ hs, ih hns' hstyr, List.filter_cons_of_pos (by rfl)]
      rfl
    | tag t =>
      obtain ⟨hne, hchars, _, hscr⟩ := wfNode_tag_unpack hn
      show stripBlocks "script".data (('<' :: t ++ ['>']) ++ render ns) = _
      have e1 : ('<' :: t ++ ['>']) ++ render ns = '<' :: (t ++ '>' :: render ns) := by
        simp
      rw [e1, stripBlocks_tag_node "script".data t (render ns) (by decide)
        (fun x hx => (hchars x hx).1) hscr, ih hns' hstyr, List.filter_cons_of_pos (by rfl)]
      show _ = ('<' :: t ++ ['>']) ++ render (List.filter _ ns)
      simp
    | script c =>
      have hcne := all_ne_lt (by simpa [wfNode] using hn)
      show stripBlocks "script".data (("<script>".data ++ c ++ "</script>".data) ++ render ns) = _
      have e1 : ("<script>".data ++ c ++ "</script>".data) ++ render ns
          = ('<' :: "script".data) ++ ('>' :: (c ++ (('<' :: '/' :: ("script".data ++ ['>'])) ++ render ns))) := by
        rw [show ("<script>".data : List Char) = ('<' :: "script".data) ++ ['>'] from rfl,
          show ("</script>".data : List Char) = '<' :: '/' :: ("script".data ++ ['>']) from rfl]
        simp [List.append_assoc]
      rw [e1, stripBlocks_block "script".data c (render ns) (by decide) hcne, ih hns' hstyr,
        List.filter_cons_of_neg (by simp [isScriptN])]
    | style c =>
      simp [isStyleN] at hsty1

/-- The tag-stripping pass maps a well-formed text/tag render to its
visible text. -/
theorem stripTags_render : ∀ (ns : List HtmlNode), wfNodes ns = true →
    ns.all (fun n => !(isStyleN n) && !(isScriptN n)) = true →
    stripTags (render ns) = visible ns := by
  intro ns
  induction ns with
  | nil => intro _ _; exact stripTags_nil
  | cons n ns ih =>
    intro h htt
    rw [wfNodes, List.all_cons, Bool.and_eq_true] at h
    obtain ⟨hn, hns⟩ := h
    have hns' : wfNodes ns = true := hns
    rw [List.all_cons, Bool.and_eq_true] at htt
    obtain ⟨htt1, httr⟩ := htt
    cases n with
    | text s =>
      have hs := all_ne_lt (by simpa [wfNode] using hn)
      show stripTags (s ++ render ns) = s ++ visible ns
      rw [stripTags_safe s _ hs, ih hns' httr]
    | tag t =>
      obtain ⟨hne, hchars, _, _⟩ := wfNode_tag_unpack hn
      show stripTags (('<' :: t ++ ['>']) ++ render ns) = ' ' :: visible ns
      have e1 : ('<' :: t ++ ['>']) ++ render ns = '<' :: (t ++ '>' :: render ns) := by
        simp
      rw [e1, stripTags_tag t (render ns) hne (fun x hx => (hchars x hx).2), ih hns' httr]
    | script c =>
      simp [isScriptN] at htt1
    | style c =>
      simp [isStyleN] at htt1

/-- C8: on a well-formed HTML document, `_strip_html` equals entity
decoding and whitespace collapsing applied to just the visible text:
the contents of `<script>` and `<style>` blocks are gone entirely (the
output does not depend on them), every remaining tag has been replaced
by a space, runs of whitespace collapse to one space, and the entities
`&nbsp;`, `&amp;`, `&lt;`, `&gt;` are decoded. -/
theorem C8_strip_html (ns : List HtmlNode) (h : wfNodes ns = true) :
    strip_html (render ns) = collapseWsL (decodeEntities (visible ns)) := by
  unfold strip_html
  rw [stripBlocks_style_render ns h]
  have h1 : wfNodes (ns.filter (fun n => !(isStyleN n))) = true := wfNodes_filter _ h
  have h2 : (ns.filter (fun n => !(isStyleN n))).all (fun n => !(isStyleN n)) = true :=
    List.all_eq_true.mpr fun n hn => (List.mem_filter.mp hn).2
  rw [stripBlocks_script_render _ h1 h2]
  have h3 : wfNodes ((ns.filter (fun n => !(isStyleN n))).filter (fun n => !(isScriptN n))) = true :=
    wfNodes_filter _ h1
  have h4 : ((ns.filter (fun n => !(isStyleN n))).filter (fun n => !(isScriptN n))).all
      (fun n => !(isStyleN n) && !(isScriptN n)) = true := by
    rw [List.all_eq_true]
    intro n hn
    have hm := List.mem_filter.mp hn
    have hm2 := List.mem_filter.mp hm.1
    rw [Bool.and_eq_true]
    exact ⟨hm2.2, hm.2⟩
  rw [stripTags_render _ h3 h4, visible_filter_script, visible_filter_style]

/-- Concrete document used to instantiate `C8_strip_html`: visible
text around a style block, a script block and a bold tag. -/
def c8doc : List HtmlNode :=
  [HtmlNode.text "Fish &amp; chips ".data,
   HtmlNode.style "p .hidden-rule".data,
   HtmlNode.text " for &lt;you&gt;".data,
   HtmlNode.script "alert(12345)".data,
   HtmlNode.tag "b".data,
   HtmlNode.text "end".data]

/-- Witness for `C8_strip_html` on `c8doc`. -/
theorem C8_strip_html_witness :
    wfNodes c8doc = true
    ∧ strip_html (render c8doc) = collapseWsL (decodeEntities (visible c8doc)) :=
  ⟨by decide, C8_strip_html c8doc (by decide)⟩

end Clawmail
